import Mathlib

/-!
CoroutinePool (src/log_system/logs_code/CoroutinePool.hpp)

A shallow embedding of the coroutine thread pool as a labelled transition
system.  The shared members of the class (`workers`, `tasks`, `queue_mutex`,
`stop`) are the fields of `Pool`; every thread of the program takes one
atomic step at a time:

* a worker thread runs `worker_loop` (lines 91-107) with one program counter
  per worker;
* any number of producer threads run `enqueue(...).await_suspend` (72-82);
* one thread runs the destructor (48-59).

`condition.wait(lock, pred)` is `while (!pred()) wait(lock)`: a waiting worker
may wake at any time (a notification or a spurious wake-up), re-acquires the
mutex and evaluates the predicate again.  `notify_one` / `notify_all`
therefore have no effect on the state of the model.  Ghost fields (`pushed`,
`popped`, `executed`, `log`) record the history of a run and are never read by
the program.
-/

namespace CoroutinePool

/-! ## Data model -/

/-- The work closure `func` captured by an awaitable: an identity and whether
calling it raises a fault instead of returning. -/
structure Work where
  tag : Nat
  raises : Bool
deriving DecidableEq, Repr

/-- A `std::coroutine_handle<>`: the address of the frame (0 is the null
handle) and whether resuming it raises a fault (for a coroutine of type `Task`
the fault reaches `TaskPromise::unhandled_exception`, line 17, which calls
`std::terminate`). -/
structure Handle where
  addr : Nat
  raises : Bool
deriving DecidableEq, Repr

/-- The `explicit operator bool` of a coroutine handle: the handle is not null. -/
def Handle.toBool (h : Handle) : Bool := h.addr != 0

/-- One element of `tasks`: the lambda `[this, h] { func(); if (h) h.resume(); }`
built at line 76.  `serial` is a ghost field, the number of entries pushed
before this one. -/
structure Entry where
  serial : Nat
  func : Work
  h : Handle
deriving DecidableEq, Repr

/-- What the body of an entry does, in order. -/
inductive Action where
  | call (f : Work)
  | ret (f : Work)
  | resume (h : Handle)
deriving DecidableEq, Repr

/-- The result of one call `task()`: the actions performed and whether a
fault left the call. -/
structure Outcome where
  actions : List Action
  fault : Bool
deriving DecidableEq, Repr

/-- The body of the lambda at lines 77-79: `func(); if (h) h.resume();`.
A fault raised by `func()` leaves the body at once. -/
def Entry.invoke (e : Entry) : Outcome :=
  if e.func.raises then
    { actions := [Action.call e.func], fault := true }
  else if e.h.toBool then
    { actions := [Action.call e.func, Action.ret e.func, Action.resume e.h],
      fault := e.h.raises }
  else
    { actions := [Action.call e.func, Action.ret e.func], fault := false }

/-- Program counter of a worker thread inside `worker_loop`. -/
inductive WorkerPc where
  /-- line 95-97: not holding the mutex, about to lock it -/
  | atTop
  /-- line 98-103: holding the mutex, the wait predicate is evaluated next -/
  | locked
  /-- inside `condition.wait`: blocked, the mutex released -/
  | waiting
  /-- line 105: inside `task()`, the lock scope has been left -/
  | running (task : Entry)
  /-- line 101: `worker_loop` has returned -/
  | exited
deriving DecidableEq, Repr

/-- Which thread owns `queue_mutex`. -/
inductive Holder where
  | worker (i : Nat)
  | producer (f : Work) (h : Handle)
  | destructor
deriving DecidableEq, Repr

/-- Program counter of the thread that destroys the pool. -/
inductive DtorPc where
  /-- the destructor has not been called -/
  | alive
  /-- line 51-52: holding the mutex -/
  | inLock
  /-- line 54-58: `stop` written, joining the workers -/
  | joining
  /-- line 59: the destructor has returned -/
  | destroyed
deriving DecidableEq, Repr

/-- Events of the ghost log. -/
inductive Ev where
  | begin (w : Nat) (e : Entry)
  | act (w : Nat) (a : Action)
  | done (w : Nat) (e : Entry)
deriving DecidableEq, Repr

/-- The pool: the members of the class, the program counters of its threads,
whether the process has been terminated, and the ghost history. -/
structure Pool where
  workers : List WorkerPc
  tasks : List Entry
  stop : Bool
  queue_mutex : Option Holder
  dtor : DtorPc
  terminated : Bool
  pushed : List Entry
  popped : List Entry
  executed : List Entry
  log : List Ev
deriving DecidableEq, Repr

/-! ## Operations -/

/-- The constructor (lines 39-46): `stop(false)`, an empty queue and `threads`
workers, each started at the top of `worker_loop`. -/
def create (threads : Nat) : Pool :=
  { workers := List.replicate threads WorkerPc.atTop
    tasks := []
    stop := false
    queue_mutex := none
    dtor := DtorPc.alive
    terminated := false
    pushed := []
    popped := []
    executed := []
    log := [] }

/-- The critical section of `await_suspend` (lines 75-79): `tasks.emplace` of
the lambda built from `func` and `h`. -/
def await_suspend (p : Pool) (f : Work) (h : Handle) : Pool :=
  { p with
    tasks := p.tasks ++ [{ serial := p.pushed.length, func := f, h := h }]
    pushed := p.pushed ++ [{ serial := p.pushed.length, func := f, h := h }] }

/-- What a worker holding the mutex does next (lines 98-103). -/
inductive Crit where
  /-- the wait predicate is false: release the mutex and block -/
  | block
  /-- line 101: `return` -/
  | exit
  /-- lines 102-103: `task` is the front, `rest` is the queue after `pop()` -/
  | run (task : Entry) (rest : List Entry)
  /-- `tasks.front()` on an empty queue -/
  | emptyFront
deriving DecidableEq, Repr

/-- Lines 98-103 of `worker_loop`, on the values of `stop` and `tasks` read
under the mutex. -/
def worker_loop_locked (stop : Bool) (tasks : List Entry) : Crit :=
  if !(stop || !tasks.isEmpty) then Crit.block
  else if stop && tasks.isEmpty then Crit.exit
  else
    match tasks with
    | [] => Crit.emptyFront
    | e :: rest => Crit.run e rest

/-- The atomic steps of the threads. -/
inductive Label where
  /-- line 97: worker `i` locks the mutex -/
  | workerLock (i : Nat)
  /-- lines 98-104: worker `i` evaluates the predicate under the mutex and
  blocks, returns, or pops the front entry; the mutex is released -/
  | workerLocked (i : Nat)
  /-- worker `i` wakes inside `condition.wait` and re-acquires the mutex -/
  | workerWake (i : Nat)
  /-- line 105: worker `i` runs `task()` to its end -/
  | workerTask (i : Nat)
  /-- line 75: a producer locks the mutex inside `await_suspend` -/
  | suspendLock (f : Work) (h : Handle)
  /-- lines 76-80: the producer holding the mutex emplaces and unlocks -/
  | suspendEmplace
  /-- line 51: the destructor locks the mutex -/
  | dtorLock
  /-- lines 52-54: the destructor writes `stop = true` and unlocks -/
  | dtorStop
  /-- lines 55-58: every `join` has returned -/
  | dtorJoin
deriving DecidableEq, Repr

/-- One atomic step; `none` when the step is not enabled.  No thread steps
after `std::terminate` or once the pool object has been destroyed.  `task()` is
called outside any handler (line 105), so a fault that leaves it leaves the
thread function of the worker, which terminates the process. -/
def step (s : Pool) (l : Label) : Option Pool :=
  if s.terminated || s.dtor == DtorPc.destroyed then none
  else
    match l with
    | Label.workerLock i =>
      if s.workers[i]? = some WorkerPc.atTop ∧ s.queue_mutex = none then
        some { s with workers := s.workers.set i WorkerPc.locked
                      queue_mutex := some (Holder.worker i) }
      else none
    | Label.workerWake i =>
      if s.workers[i]? = some WorkerPc.waiting ∧ s.queue_mutex = none then
        some { s with workers := s.workers.set i WorkerPc.locked
                      queue_mutex := some (Holder.worker i) }
      else none
    | Label.workerLocked i =>
      if s.workers[i]? = some WorkerPc.locked ∧ s.queue_mutex = some (Holder.worker i) then
        match worker_loop_locked s.stop s.tasks with
        | Crit.block =>
          some { s with workers := s.workers.set i WorkerPc.waiting, queue_mutex := none }
        | Crit.exit =>
          some { s with workers := s.workers.set i WorkerPc.exited, queue_mutex := none }
        | Crit.run e rest =>
          some { s with workers := s.workers.set i (WorkerPc.running e)
                        tasks := rest
                        queue_mutex := none
                        popped := s.popped ++ [e]
                        log := s.log ++ [Ev.begin i e] }
        | Crit.emptyFront => none
      else none
    | Label.workerTask i =>
      match s.workers[i]? with
      | some (WorkerPc.running e) =>
        if e.invoke.fault then
          some { s with terminated := true
                        log := s.log ++ e.invoke.actions.map (Ev.act i) }
        else
          some { s with workers := s.workers.set i WorkerPc.atTop
                        executed := s.executed ++ [e]
                        log := s.log ++ (e.invoke.actions.map (Ev.act i) ++ [Ev.done i e]) }
      | _ => none
    | Label.suspendLock f h =>
      if s.queue_mutex = none then some { s with queue_mutex := some (Holder.producer f h) }
      else none
    | Label.suspendEmplace =>
      match s.queue_mutex with
      | some (Holder.producer f h) => some { await_suspend s f h with queue_mutex := none }
      | _ => none
    | Label.dtorLock =>
      if s.dtor = DtorPc.alive ∧ s.queue_mutex = none then
        some { s with dtor := DtorPc.inLock, queue_mutex := some Holder.destructor }
      else none
    | Label.dtorStop =>
      if s.dtor = DtorPc.inLock ∧ s.queue_mutex = some Holder.destructor then
        some { s with stop := true, dtor := DtorPc.joining, queue_mutex := none }
      else none
    | Label.dtorJoin =>
      if s.dtor = DtorPc.joining ∧ s.workers.all (fun w => w == WorkerPc.exited) then
        some { s with dtor := DtorPc.destroyed }
      else none

/-- A finite run: the steps `ls` taken in order from `s`. -/
def run (s : Pool) : List Label → Option Pool
  | [] => some s
  | l :: ls => (step s l).bind (fun s' => run s' ls)

/-- The states a pool of `threads` workers can reach. -/
def Reachable (threads : Nat) (s : Pool) : Prop :=
  ∃ ls, run (create threads) ls = some s

/-- The entries popped by a worker whose `task()` has not returned. -/
def inflight : List WorkerPc → List Entry
  | [] => []
  | WorkerPc.running e :: ws => e :: inflight ws
  | _ :: ws => inflight ws

/-- The log of a worker `w` that ran the entries `es` one after the other. -/
def seqLog (w : Nat) : List Entry → List Ev
  | [] => []
  | e :: es => Ev.begin w e :: (e.invoke.actions.map (Ev.act w) ++ Ev.done w e :: seqLog w es)

/-! ## The step relation, case by case -/

/-- The relational reading of `step`: one constructor per enabled step. -/
inductive Step : Pool → Label → Pool → Prop where
  | workerLock (s : Pool) (i : Nat) (hw : s.workers[i]? = some WorkerPc.atTop)
      (hm : s.queue_mutex = none) :
      Step s (Label.workerLock i)
        { s with workers := s.workers.set i WorkerPc.locked, queue_mutex := some (Holder.worker i) }
  | workerWake (s : Pool) (i : Nat) (hw : s.workers[i]? = some WorkerPc.waiting)
      (hm : s.queue_mutex = none) :
      Step s (Label.workerWake i)
        { s with workers := s.workers.set i WorkerPc.locked, queue_mutex := some (Holder.worker i) }
  | workerBlock (s : Pool) (i : Nat) (hw : s.workers[i]? = some WorkerPc.locked)
      (hm : s.queue_mutex = some (Holder.worker i))
      (hc : worker_loop_locked s.stop s.tasks = Crit.block) :
      Step s (Label.workerLocked i)
        { s with workers := s.workers.set i WorkerPc.waiting, queue_mutex := none }
  | workerExit (s : Pool) (i : Nat) (hw : s.workers[i]? = some WorkerPc.locked)
      (hm : s.queue_mutex = some (Holder.worker i))
      (hc : worker_loop_locked s.stop s.tasks = Crit.exit) :
      Step s (Label.workerLocked i)
        { s with workers := s.workers.set i WorkerPc.exited, queue_mutex := none }
  | workerPop (s : Pool) (i : Nat) (e : Entry) (rest : List Entry)
      (hw : s.workers[i]? = some WorkerPc.locked)
      (hm : s.queue_mutex = some (Holder.worker i))
      (hc : worker_loop_locked s.stop s.tasks = Crit.run e rest) :
      Step s (Label.workerLocked i)
        { s with workers := s.workers.set i (WorkerPc.running e)
                 tasks := rest
                 queue_mutex := none
                 popped := s.popped ++ [e]
                 log := s.log ++ [Ev.begin i e] }
  | workerFault (s : Pool) (i : Nat) (e : Entry)
      (hw : s.workers[i]? = some (WorkerPc.running e)) (hf : e.invoke.fault = true) :
      Step s (Label.workerTask i)
        { s with terminated := true
                 log := s.log ++ e.invoke.actions.map (Ev.act i) }
  | workerDone (s : Pool) (i : Nat) (e : Entry)
      (hw : s.workers[i]? = some (WorkerPc.running e)) (hf : e.invoke.fault = false) :
      Step s (Label.workerTask i)
        { s with workers := s.workers.set i WorkerPc.atTop
                 executed := s.executed ++ [e]
                 log := s.log ++ (e.invoke.actions.map (Ev.act i) ++ [Ev.done i e]) }
  | suspendLock (s : Pool) (f : Work) (h : Handle) (hm : s.queue_mutex = none) :
      Step s (Label.suspendLock f h) { s with queue_mutex := some (Holder.producer f h) }
  | suspendEmplace (s : Pool) (f : Work) (h : Handle)
      (hm : s.queue_mutex = some (Holder.producer f h)) :
      Step s Label.suspendEmplace { await_suspend s f h with queue_mutex := none }
  | dtorLock (s : Pool) (hd : s.dtor = DtorPc.alive) (hm : s.queue_mutex = none) :
      Step s Label.dtorLock { s with dtor := DtorPc.inLock, queue_mutex := some Holder.destructor }
  | dtorStop (s : Pool) (hd : s.dtor = DtorPc.inLock)
      (hm : s.queue_mutex = some Holder.destructor) :
      Step s Label.dtorStop { s with stop := true, dtor := DtorPc.joining, queue_mutex := none }
  | dtorJoin (s : Pool) (hd : s.dtor = DtorPc.joining)
      (hx : ∀ w ∈ s.workers, w = WorkerPc.exited) :
      Step s Label.dtorJoin { s with dtor := DtorPc.destroyed }

/-- The inductive invariant of the pool. -/
structure Inv (s : Pool) : Prop where
  /-- worker `i` owns the mutex exactly when it is between lines 97 and 104 -/
  mutexW : ∀ i, s.queue_mutex = some (Holder.worker i) ↔ s.workers[i]? = some WorkerPc.locked
  /-- the destructor owns the mutex exactly when it is at lines 51-52 -/
  mutexD : s.queue_mutex = some Holder.destructor ↔ s.dtor = DtorPc.inLock
  /-- what was popped, then what is queued, is what was pushed -/
  fifo : s.popped ++ s.tasks = s.pushed
  /-- the ghost serial of an entry is its position in the push history -/
  serials : s.pushed.map Entry.serial = List.range s.pushed.length
  /-- a popped entry has been executed or is in flight, and only once -/
  perm : (s.executed ++ inflight s.workers).Perm s.popped
  /-- `stop` has been written exactly when the destructor is past line 52 -/
  stopD : s.stop = true ↔ (s.dtor = DtorPc.joining ∨ s.dtor = DtorPc.destroyed)
  /-- the destructor returns only after every worker has returned -/
  joined : s.dtor = DtorPc.destroyed → ∀ w ∈ s.workers, w = WorkerPc.exited

/-! ## Concrete runs -/

/-- A work closure that returns. -/
def workA : Work := { tag := 1, raises := false }

/-- A second work closure that returns. -/
def workB : Work := { tag := 2, raises := false }

/-- A work closure that raises a fault. -/
def workBad : Work := { tag := 3, raises := true }

/-- A continuation handle that is present. -/
def contA : Handle := { addr := 4096, raises := false }

/-- The null handle. -/
def contNull : Handle := { addr := 0, raises := false }

/-- The entry built for the first submission `(workA, contA)`. -/
def entryA : Entry := { serial := 0, func := workA, h := contA }

/-- The entry built for a second submission `(workB, contNull)`. -/
def entryB : Entry := { serial := 1, func := workB, h := contNull }

/-- The state a run reaches from a fresh pool (the fresh pool itself when a
step of the run is not enabled). -/
def after (threads : Nat) (ls : List Label) : Pool :=
  (run (create threads) ls).getD (create threads)

/-- Two submissions into a pool of two workers; worker 0 pops the first and is
still inside `task()`, worker 1 pops and finishes the second, a third
submission stays queued, and the destructor writes `stop`. -/
def busyRun : List Label :=
  [Label.suspendLock workA contA, Label.suspendEmplace,
   Label.suspendLock workB contNull, Label.suspendEmplace,
   Label.workerLock 0, Label.workerLocked 0,
   Label.workerLock 1, Label.workerLocked 1, Label.workerTask 1,
   Label.suspendLock workA contNull, Label.suspendEmplace,
   Label.dtorLock, Label.dtorStop]

/-- One submission, then the destructor writes `stop` while the entry is
still queued and the only worker has not locked the mutex yet. -/
def shutdownRun : List Label :=
  [Label.suspendLock workA contA, Label.suspendEmplace, Label.dtorLock, Label.dtorStop]

/-- The worker's steps after `shutdownRun`: lock, pop, run `task()`. -/
def drainRun : List Label :=
  [Label.workerLock 0, Label.workerLocked 0, Label.workerTask 0]

/-- Two submissions to a single worker, which runs the first to its end and
then pops the second. -/
def fifoRun : List Label :=
  [Label.suspendLock workA contA, Label.suspendEmplace,
   Label.suspendLock workB contNull, Label.suspendEmplace,
   Label.workerLock 0, Label.workerLocked 0, Label.workerTask 0,
   Label.workerLock 0, Label.workerLocked 0]

/-- A faulting submission popped by worker 0 of two, with a second entry
queued behind it. -/
def faultRun : List Label :=
  [Label.suspendLock workBad contA, Label.suspendEmplace,
   Label.suspendLock workB contNull, Label.suspendEmplace,
   Label.workerLock 0, Label.workerLocked 0]

/-- One submission, then the destructor locks the mutex (line 51). -/
def preStopRun : List Label :=
  [Label.suspendLock workA contA, Label.suspendEmplace, Label.dtorLock]

/-- After `stop` is written: the worker drains the queue, finds it empty,
returns, and the destructor's `join` returns. -/
def joinRun : List Label :=
  [Label.workerLock 0, Label.workerLocked 0, Label.workerTask 0,
   Label.workerLock 0, Label.workerLocked 0, Label.dtorJoin]

/-- The steps of a sequence of submissions, each `await_suspend` run to its
end before the next one starts. -/
def submissions : List (Work × Handle) → List Label
  | [] => []
  | (f, h) :: rest => Label.suspendLock f h :: Label.suspendEmplace :: submissions rest

/-- Whether the destructor is past line 52 (1) or not (0). -/
def DtorPc.pastStop : DtorPc → Nat
  | DtorPc.alive => 0
  | DtorPc.inLock => 0
  | DtorPc.joining => 1
  | DtorPc.destroyed => 1

/-- Two submissions into a pool of two workers; worker 0 pops the first and
stays inside `task()`. -/
def runningRun : List Label :=
  [Label.suspendLock workA contA, Label.suspendEmplace,
   Label.suspendLock workB contNull, Label.suspendEmplace,
   Label.workerLock 0, Label.workerLocked 0]

/-- While worker 0 is inside `task()`: a third submission, and worker 1 pops. -/
def meanwhileRun : List Label :=
  [Label.suspendLock workA contNull, Label.suspendEmplace,
   Label.workerLock 1, Label.workerLocked 1]

/-! ## Basic facts -/

theorem step_live {s s' : Pool} {l : Label} (h : step s l = some s') :
    s.terminated = false ∧ s.dtor ≠ DtorPc.destroyed := by
  unfold step at h
  split at h
  · exact absurd h (by simp)
  · rename_i hg
    simpa using hg

theorem step_sound {s s' : Pool} {l : Label} (h : step s l = some s') : Step s l s' := by
  have hl := step_live h
  unfold step at h
  rw [if_neg (by simp [hl.1, hl.2])] at h
  cases l with
  | workerLock i =>
    simp only at h
    split at h
    · rename_i hg
      cases h
      exact Step.workerLock s i hg.1 hg.2
    · cases h
  | workerWake i =>
    simp only at h
    split at h
    · rename_i hg
      cases h
      exact Step.workerWake s i hg.1 hg.2
    · cases h
  | workerLocked i =>
    simp only at h
    split at h
    · rename_i hg
      split at h
      · rename_i hc
        cases h
        exact Step.workerBlock s i hg.1 hg.2 hc
      · rename_i hc
        cases h
        exact Step.workerExit s i hg.1 hg.2 hc
      · rename_i e rest hc
        cases h
        exact Step.workerPop s i e rest hg.1 hg.2 hc
      · cases h
    · cases h
  | workerTask i =>
    simp only at h
    split at h
    · rename_i e hw
      split at h
      · rename_i hf
        cases h
        exact Step.workerFault s i e hw hf
      · rename_i hf
        cases h
        exact Step.workerDone s i e hw (by simpa using hf)
    · cases h
  | suspendLock f hd =>
    simp only at h
    split at h
    · rename_i hg
      cases h
      exact Step.suspendLock s f hd hg
    · cases h
  | suspendEmplace =>
    simp only at h
    split at h
    · rename_i f hd hm
      cases h
      exact Step.suspendEmplace s f hd hm
    · cases h
  | dtorLock =>
    simp only at h
    split at h
    · rename_i hg
      cases h
      exact Step.dtorLock s hg.1 hg.2
    · cases h
  | dtorStop =>
    simp only at h
    split at h
    · rename_i hg
      cases h
      exact Step.dtorStop s hg.1 hg.2
    · cases h
  | dtorJoin =>
    simp only at h
    split at h
    · rename_i hg
      cases h
      refine Step.dtorJoin s hg.1 ?_
      have := hg.2
      simpa [List.all_eq_true] using this
    · cases h

theorem inflight_set_idle (ws : List WorkerPc) (i : Nat) (w w' : WorkerPc)
    (hw : ws[i]? = some w) (h1 : ∀ e, w ≠ WorkerPc.running e)
    (h2 : ∀ e, w' ≠ WorkerPc.running e) : inflight (ws.set i w') = inflight ws := by
  induction ws generalizing i with
  | nil => simp at hw
  | cons a ws ih =>
    cases i with
    | zero =>
      simp at hw
      subst hw
      cases a <;> cases w' <;> simp_all [inflight]
    | succ i =>
      simp at hw
      have := ih i hw
      cases a <;> simp [inflight, this]

theorem inflight_set_running (ws : List WorkerPc) (i : Nat) (w : WorkerPc) (e : Entry)
    (hw : ws[i]? = some w) (h1 : ∀ e', w ≠ WorkerPc.running e') :
    (inflight (ws.set i (WorkerPc.running e))).Perm (e :: inflight ws) := by
  induction ws generalizing i with
  | nil => simp at hw
  | cons a ws ih =>
    cases i with
    | zero =>
      simp at hw
      subst hw
      cases a <;> simp_all [inflight]
    | succ i =>
      simp at hw
      have := ih i hw
      cases a with
      | running e' =>
        simp only [List.set_cons_succ, inflight]
        exact (List.Perm.cons e' this).trans (List.Perm.swap e e' _)
      | _ => simpa [inflight] using this

theorem inflight_set_done (ws : List WorkerPc) (i : Nat) (e : Entry) (w' : WorkerPc)
    (hw : ws[i]? = some (WorkerPc.running e)) (h2 : ∀ e', w' ≠ WorkerPc.running e') :
    (e :: inflight (ws.set i w')).Perm (inflight ws) := by
  induction ws generalizing i with
  | nil => simp at hw
  | cons a ws ih =>
    cases i with
    | zero =>
      simp at hw
      subst hw
      cases w' <;> simp_all [inflight]
    | succ i =>
      simp at hw
      have := ih i hw
      cases a with
      | running e' =>
        simp only [List.set_cons_succ, inflight]
        exact (List.Perm.swap e' e _).trans (List.Perm.cons e' this)
      | _ => simpa [inflight] using this

theorem inflight_all_exited (ws : List WorkerPc) (h : ∀ w ∈ ws, w = WorkerPc.exited) :
    inflight ws = [] := by
  induction ws with
  | nil => rfl
  | cons a ws ih =>
    have ha : a = WorkerPc.exited := h a (by simp)
    subst ha
    simpa [inflight] using ih (fun w hw => h w (by simp [hw]))

theorem locked_cases {stop : Bool} {tasks : List Entry} :
    (worker_loop_locked stop tasks = Crit.block ↔ stop = false ∧ tasks = []) ∧
    (worker_loop_locked stop tasks = Crit.exit ↔ stop = true ∧ tasks = []) ∧
    (∀ e rest, worker_loop_locked stop tasks = Crit.run e rest ↔ tasks = e :: rest) ∧
    worker_loop_locked stop tasks ≠ Crit.emptyFront := by
  cases stop <;> cases tasks <;> simp [worker_loop_locked]

theorem inv_create (threads : Nat) : Inv (create threads) := by
  refine ⟨?_, ?_, ?_, ?_, ?_, ?_, ?_⟩
  · intro i
    simp [create, List.getElem?_replicate]
  · simp [create]
  · simp [create]
  · simp [create]
  · have : inflight (List.replicate threads WorkerPc.atTop) = [] := by
      induction threads with
      | zero => rfl
      | succ n ih => simpa [List.replicate_succ, inflight] using ih
    simp [create, this]
  · simp [create]
  · simp [create]

theorem getElem?_set_locked_iff (ws : List WorkerPc) (i j : Nat) (w w' : WorkerPc)
    (hw : ws[i]? = some w) (hne : w' ≠ WorkerPc.locked) (hnl : w ≠ WorkerPc.locked) :
    (ws.set i w')[j]? = some WorkerPc.locked ↔ ws[j]? = some WorkerPc.locked := by
  rw [List.getElem?_set]
  by_cases hij : i = j
  · subst hij
    have hlt : i < ws.length := (List.getElem?_eq_some.mp hw).1
    simp [hlt, hw, hne, hnl]
  · simp [hij]

theorem inv_step {s s' : Pool} {l : Label} (hi : Inv s) (h : Step s l s') : Inv s' := by
  obtain ⟨hmW, hmD, hfifo, hser, hperm, hstop, hjoin⟩ := hi
  cases h with
  | workerLock i hw hm =>
    have hlt : i < s.workers.length := (List.getElem?_eq_some.mp hw).1
    refine ⟨?_, ?_, hfifo, hser, ?_, hstop, ?_⟩
    · intro j
      simp only [List.getElem?_set]
      by_cases hij : i = j
      · subst hij; simp [hlt]
      · have := hmW j
        simp [hm] at this
        simp [hij, this, Holder.worker.injEq]
    · have := hmD
      simp [hm] at this
      simp
      exact this
    · simp only
      rw [inflight_set_idle s.workers i WorkerPc.atTop WorkerPc.locked hw (by simp) (by simp)]
      exact hperm
    · intro hd w hwm
      have := hjoin hd
      rw [List.getElem?_eq_some] at hw
      obtain ⟨h1, h2⟩ := hw
      have := this _ (List.getElem_mem h1)
      simp [h2] at this
  | workerWake i hw hm =>
    have hlt : i < s.workers.length := (List.getElem?_eq_some.mp hw).1
    refine ⟨?_, ?_, hfifo, hser, ?_, hstop, ?_⟩
    · intro j
      simp only [List.getElem?_set]
      by_cases hij : i = j
      · subst hij; simp [hlt]
      · have := hmW j
        simp [hm] at this
        simp [hij, this, Holder.worker.injEq]
    · have := hmD
      simp [hm] at this
      simp
      exact this
    · simp only
      rw [inflight_set_idle s.workers i WorkerPc.waiting WorkerPc.locked hw (by simp) (by simp)]
      exact hperm
    · intro hd w hwm
      have := hjoin hd
      rw [List.getElem?_eq_some] at hw
      obtain ⟨h1, h2⟩ := hw
      have := this _ (List.getElem_mem h1)
      simp [h2] at this
  | workerBlock i hw hm hc =>
    have hlt : i < s.workers.length := (List.getElem?_eq_some.mp hw).1
    refine ⟨?_, ?_, hfifo, hser, ?_, hstop, ?_⟩
    · intro j
      simp only [List.getElem?_set]
      by_cases hij : i = j
      · subst hij; simp [hlt]
      · have := hmW j
        simp [hm, Holder.worker.injEq, hij] at this
        simp [hij, this]
    · have := hmD
      simp [hm] at this
      simp
      exact this
    · simp only
      rw [inflight_set_idle s.workers i WorkerPc.locked WorkerPc.waiting hw (by simp) (by simp)]
      exact hperm
    · intro hd w hwm
      have := hjoin hd
      rw [List.getElem?_eq_some] at hw
      obtain ⟨h1, h2⟩ := hw
      have := this _ (List.getElem_mem h1)
      simp [h2] at this
  | workerExit i hw hm hc =>
    have hlt : i < s.workers.length := (List.getElem?_eq_some.mp hw).1
    refine ⟨?_, ?_, hfifo, hser, ?_, hstop, ?_⟩
    · intro j
      simp only [List.getElem?_set]
      by_cases hij : i = j
      · subst hij; simp [hlt]
      · have := hmW j
        simp [hm, Holder.worker.injEq, hij] at this
        simp [hij, this]
    · have := hmD
      simp [hm] at this
      simp
      exact this
    · simp only
      rw [inflight_set_idle s.workers i WorkerPc.locked WorkerPc.exited hw (by simp) (by simp)]
      exact hperm
    · intro hd w hwm
      have := hjoin hd
      rw [List.getElem?_eq_some] at hw
      obtain ⟨h1, h2⟩ := hw
      have := this _ (List.getElem_mem h1)
      simp [h2] at this
  | workerPop i e rest hw hm hc =>
    have hlt : i < s.workers.length := (List.getElem?_eq_some.mp hw).1
    have ht : s.tasks = e :: rest := (locked_cases.2.2.1 e rest).mp hc
    refine ⟨?_, ?_, ?_, hser, ?_, hstop, ?_⟩
    · intro j
      simp only [List.getElem?_set]
      by_cases hij : i = j
      · subst hij; simp [hlt]
      · have := hmW j
        simp [hm, Holder.worker.injEq, hij] at this
        simp [hij, this]
    · have := hmD
      simp [hm] at this
      simp
      exact this
    · simp only
      rw [← hfifo, ht]
      simp
    · simp only
      have h1 := inflight_set_running s.workers i _ e hw (by simp)
      have h2 : (s.executed ++ inflight (s.workers.set i (WorkerPc.running e))).Perm
          (s.executed ++ e :: inflight s.workers) := List.Perm.append_left _ h1
      refine h2.trans ?_
      refine List.perm_middle.trans ?_
      refine (List.Perm.cons e hperm).trans ?_
      exact (List.perm_append_singleton e s.popped).symm
    · intro hd w hwm
      have := hjoin hd
      rw [List.getElem?_eq_some] at hw
      obtain ⟨h1, h2⟩ := hw
      have := this _ (List.getElem_mem h1)
      simp [h2] at this
  | workerFault i e hw hf =>
    exact ⟨hmW, hmD, hfifo, hser, hperm, hstop, hjoin⟩
  | workerDone i e hw hf =>
    have hlt : i < s.workers.length := (List.getElem?_eq_some.mp hw).1
    refine ⟨?_, hmD, hfifo, hser, ?_, hstop, ?_⟩
    · intro j
      simp only
      rw [getElem?_set_locked_iff s.workers i j _ _ hw (by simp) (by simp)]
      exact hmW j
    · simp only
      have h1 := inflight_set_done s.workers i e WorkerPc.atTop hw (by simp)
      have h2 : (s.executed ++ [e] ++ inflight (s.workers.set i WorkerPc.atTop)).Perm
          (s.executed ++ inflight s.workers) := by
        rw [List.append_assoc]
        exact List.Perm.append_left _ h1
      exact h2.trans hperm
    · intro hd w hwm
      have := hjoin hd
      rw [List.getElem?_eq_some] at hw
      obtain ⟨h1, h2⟩ := hw
      have := this _ (List.getElem_mem h1)
      simp [h2] at this
  | suspendLock f h hm =>
    refine ⟨?_, ?_, hfifo, hser, hperm, hstop, hjoin⟩
    · intro j
      have := hmW j
      simp [hm] at this
      simp [this]
    · have := hmD
      simp [hm] at this
      simp
      exact this
  | suspendEmplace f h hm =>
    refine ⟨?_, ?_, ?_, ?_, hperm, hstop, hjoin⟩
    · intro j
      have := hmW j
      simp [hm] at this
      simp [await_suspend, this]
    · have := hmD
      simp [hm] at this
      simp [await_suspend]
      exact this
    · simp [await_suspend, ← hfifo]
    · simp [await_suspend, hser, List.range_succ]
  | dtorLock hd hm =>
    refine ⟨?_, ?_, hfifo, hser, hperm, ?_, ?_⟩
    · intro j
      have := hmW j
      simp [hm] at this
      simp [this]
    · simp
    · simpa [hd] using hstop
    · simp
  | dtorStop hd hm =>
    refine ⟨?_, ?_, hfifo, hser, hperm, ?_, ?_⟩
    · intro j
      have := hmW j
      simp [hm] at this
      simp [this]
    · simp
    · simp
    · simp
  | dtorJoin hd hx =>
    refine ⟨hmW, ?_, hfifo, hser, hperm, ?_, ?_⟩
    · have := hmD
      simp [hd] at this
      simp [this]
    · simp
      simpa [hd] using hstop
    · intro _
      exact hx

theorem run_cons (s : Pool) (l : Label) (ls : List Label) :
    run s (l :: ls) = (step s l).bind (fun s' => run s' ls) := rfl

theorem run_append (s : Pool) (l1 l2 : List Label) :
    run s (l1 ++ l2) = (run s l1).bind (fun s' => run s' l2) := by
  induction l1 generalizing s with
  | nil => simp [run]
  | cons l l1 ih =>
    simp only [List.cons_append, run_cons]
    cases step s l with
    | none => simp
    | some s1 => simpa using ih s1

/-- A property kept by every step is kept by every run. -/
theorem run_induct (P : Pool → Prop) (hstep : ∀ s l s', P s → Step s l s' → P s')
    {s s' : Pool} {ls : List Label} (h0 : P s) (h : run s ls = some s') : P s' := by
  induction ls generalizing s with
  | nil =>
    simp [run] at h
    exact h ▸ h0
  | cons l ls ih =>
    rw [run_cons] at h
    cases hs : step s l with
    | none => simp [hs] at h
    | some s1 =>
      rw [hs] at h
      exact ih (hstep s l s1 h0 (step_sound hs)) h

theorem inv_run {s s' : Pool} {ls : List Label} (hi : Inv s) (h : run s ls = some s') :
    Inv s' :=
  run_induct Inv (fun _ _ _ hi hs => inv_step hi hs) hi h

theorem inv_reachable {threads : Nat} {s : Pool} (h : Reachable threads s) : Inv s := by
  obtain ⟨ls, hls⟩ := h
  exact inv_run (inv_create threads) hls

theorem pushed_nodup {s : Pool} (hi : Inv s) : s.pushed.Nodup := by
  have h : (s.pushed.map Entry.serial).Nodup := by
    rw [hi.serials]
    exact List.nodup_range _
  exact List.Nodup.of_map _ h

theorem reachable_after {threads : Nat} {ls : List Label} {s : Pool}
    (h : run (create threads) ls = some s) : Reachable threads (after threads ls) := by
  refine ⟨ls, ?_⟩
  simp [after, h]

theorem reachable_run {threads : Nat} {s s' : Pool} {ls : List Label}
    (h : Reachable threads s) (hr : run s ls = some s') : Reachable threads s' := by
  obtain ⟨l0, h0⟩ := h
  refine ⟨l0 ++ ls, ?_⟩
  rw [run_append, h0]
  simpa using hr

/-! ## C1: every entry is popped and executed at most once -/

/-- C1: in every reachable state of a pool with any number of workers, the
entries pushed so far are pairwise distinct, the entries popped so far are
popped once each and none of them is in the queue again, the executed
entries together with the entries in flight are exactly the popped ones (so
nothing is executed twice), and executed + in-flight + queued is the number
pushed; once every worker has returned (in particular after the destructor
has returned) executed + still queued (abandoned) is the number pushed. -/
theorem C1_each_entry_at_most_once (threads : Nat) (s : Pool) (h : Reachable threads s) :
    s.pushed.Nodup ∧ s.popped.Nodup ∧ s.executed.Nodup ∧
    (∀ e ∈ s.popped, e ∉ s.tasks) ∧
    (∀ e ∈ s.executed, e ∉ inflight s.workers ∧ e ∉ s.tasks) ∧
    (s.executed ++ inflight s.workers ++ s.tasks).Perm s.pushed ∧
    s.executed.length + (inflight s.workers).length + s.tasks.length = s.pushed.length ∧
    ((∀ w ∈ s.workers, w = WorkerPc.exited) →
      s.executed.length + s.tasks.length = s.pushed.length) ∧
    (s.dtor = DtorPc.destroyed → s.executed.length + s.tasks.length = s.pushed.length) := by
  have hi := inv_reachable h
  have hnd := pushed_nodup hi
  have hnd2 : (s.popped ++ s.tasks).Nodup := by rw [hi.fifo]; exact hnd
  have hpop : s.popped.Nodup := (List.nodup_append.mp hnd2).1
  have hdis : ∀ e ∈ s.popped, e ∉ s.tasks := fun e he ht =>
    (List.nodup_append.mp hnd2).2.2 he ht
  have hexin : (s.executed ++ inflight s.workers).Nodup := hi.perm.nodup_iff.mpr hpop
  have hperm : (s.executed ++ inflight s.workers ++ s.tasks).Perm s.pushed := by
    rw [← hi.fifo]
    exact List.Perm.append_right _ hi.perm
  have hcount : s.executed.length + (inflight s.workers).length + s.tasks.length
      = s.pushed.length := by
    have := hperm.length_eq
    simp only [List.length_append] at this
    exact this
  have hall : (∀ w ∈ s.workers, w = WorkerPc.exited) →
      s.executed.length + s.tasks.length = s.pushed.length := by
    intro hx
    have h0 := inflight_all_exited s.workers hx
    rw [h0] at hcount
    simpa using hcount
  refine ⟨hnd, hpop, (List.nodup_append.mp hexin).1, hdis, ?_, hperm, hcount, hall, ?_⟩
  · intro e he
    refine ⟨fun hin => (List.nodup_append.mp hexin).2.2 he hin, ?_⟩
    apply hdis
    exact hi.perm.subset (List.mem_append_left _ he)
  · intro hd
    exact hall (hi.joined hd)

/-- C1 at `busyRun`: three entries pushed, one executed, one in flight, one
queued. -/
theorem C1_each_entry_at_most_once_witness :
    Reachable 2 (after 2 busyRun) ∧
    (after 2 busyRun).pushed.length = 3 ∧
    (after 2 busyRun).executed.length + (inflight (after 2 busyRun).workers).length
      + (after 2 busyRun).tasks.length = (after 2 busyRun).pushed.length :=
  ⟨reachable_after (s := after 2 busyRun) (by decide), by decide,
    (C1_each_entry_at_most_once 2 (after 2 busyRun)
      (reachable_after (s := after 2 busyRun) (by decide))).2.2.2.2.2.2.1⟩

/-! ## C2: delivery in push order -/

/-- A property kept by every enabled step of a live pool is kept by every run. -/
theorem run_induct_live (P : Pool → Prop)
    (hstep : ∀ s l s', P s → s.terminated = false → Step s l s' → P s')
    {s s' : Pool} {ls : List Label} (h0 : P s) (h : run s ls = some s') : P s' := by
  induction ls generalizing s with
  | nil =>
    simp [run] at h
    exact h ▸ h0
  | cons l ls ih =>
    rw [run_cons] at h
    cases hs : step s l with
    | none => simp [hs] at h
    | some s1 =>
      rw [hs] at h
      exact ih (hstep s l s1 h0 (step_live hs).1 (step_sound hs)) h

theorem seqLog_append (w : Nat) (a b : List Entry) :
    seqLog w (a ++ b) = seqLog w a ++ seqLog w b := by
  induction a with
  | nil => rfl
  | cons e a ih => simp [seqLog, ih]

theorem begin_mem_seqLog {w : Nat} {B : Entry} {es : List Entry}
    (h : Ev.begin w B ∈ seqLog w es) : B ∈ es := by
  induction es with
  | nil => simp [seqLog] at h
  | cons e es ih =>
    simp only [seqLog, List.mem_cons, List.mem_append, List.mem_map] at h
    rcases h with h | h | h | h
    · cases h; simp
    · obtain ⟨a, _, ha⟩ := h
      cases ha
    · cases h
    · simp [ih h]

theorem seqLog_ordered (w : Nat) (A B : Entry) (q1 q2 q3 : List Entry) :
    ∃ l1 l2 l3, seqLog w (q1 ++ A :: (q2 ++ B :: q3))
      = l1 ++ Ev.done w A :: (l2 ++ Ev.begin w B :: l3) := by
  refine ⟨seqLog w q1 ++ Ev.begin w A :: A.invoke.actions.map (Ev.act w), seqLog w q2,
    B.invoke.actions.map (Ev.act w) ++ Ev.done w B :: seqLog w q3, ?_⟩
  simp [seqLog_append, seqLog]

/-- The shape of a single-worker pool: the worker executes the popped entries
one after the other. -/
theorem single_worker_shape (s : Pool) (h : Reachable 1 s) :
    ∃ w, s.workers = [w] ∧
      ((∀ e, w ≠ WorkerPc.running e) → s.popped = s.executed ∧ s.log = seqLog 0 s.executed) ∧
      (∀ e, w = WorkerPc.running e → s.popped = s.executed ++ [e] ∧
        ∃ acts : List Action, (s.terminated = false → acts = []) ∧
          s.log = seqLog 0 s.executed ++ Ev.begin 0 e :: acts.map (Ev.act 0)) := by
  obtain ⟨ls, hls⟩ := h
  refine run_induct_live (fun s => ∃ w, s.workers = [w] ∧
      ((∀ e, w ≠ WorkerPc.running e) → s.popped = s.executed ∧ s.log = seqLog 0 s.executed) ∧
      (∀ e, w = WorkerPc.running e → s.popped = s.executed ++ [e] ∧
        ∃ acts : List Action, (s.terminated = false → acts = []) ∧
          s.log = seqLog 0 s.executed ++ Ev.begin 0 e :: acts.map (Ev.act 0))) ?_ ?_ hls
  · intro s l s' hP hlive hs
    obtain ⟨w, hw1, hidle, hrun⟩ := hP
    have hidx : ∀ i x, s.workers[i]? = some x → i = 0 ∧ x = w := by
      intro i x hx
      rw [hw1] at hx
      cases i with
      | zero => simpa using hx.symm
      | succ i => simp at hx
    cases hs with
    | workerLock i hw hm =>
      obtain ⟨rfl, rfl⟩ := hidx i _ hw
      refine ⟨WorkerPc.locked, by simp [hw1], fun _ => hidle (by simp), by simp⟩
    | workerWake i hw hm =>
      obtain ⟨rfl, rfl⟩ := hidx i _ hw
      refine ⟨WorkerPc.locked, by simp [hw1], fun _ => hidle (by simp), by simp⟩
    | workerBlock i hw hm hc =>
      obtain ⟨rfl, rfl⟩ := hidx i _ hw
      refine ⟨WorkerPc.waiting, by simp [hw1], fun _ => hidle (by simp), by simp⟩
    | workerExit i hw hm hc =>
      obtain ⟨rfl, rfl⟩ := hidx i _ hw
      refine ⟨WorkerPc.exited, by simp [hw1], fun _ => hidle (by simp), by simp⟩
    | workerPop i e rest hw hm hc =>
      obtain ⟨rfl, rfl⟩ := hidx i _ hw
      obtain ⟨h1, h2⟩ := hidle (by simp)
      refine ⟨WorkerPc.running e, by simp [hw1], fun hne => absurd rfl (hne e), ?_⟩
      intro e' he'
      cases he'
      exact ⟨by simp [h1], [], by simp, by simp [h2]⟩
    | workerFault i e hw hf =>
      obtain ⟨rfl, rfl⟩ := hidx i _ hw
      obtain ⟨h1, acts, hacts, h2⟩ := hrun e rfl
      refine ⟨WorkerPc.running e, hw1, fun hne => absurd rfl (hne e), ?_⟩
      intro e' he'
      cases he'
      exact ⟨h1, acts ++ e.invoke.actions, by simp, by simp [h2]⟩
    | workerDone i e hw hf =>
      obtain ⟨rfl, rfl⟩ := hidx i _ hw
      obtain ⟨h1, acts, hacts, h2⟩ := hrun e rfl
      have hnil := hacts hlive
      subst hnil
      refine ⟨WorkerPc.atTop, by simp [hw1], fun _ => ?_, by simp⟩
      exact ⟨h1, by simp [h2, seqLog_append, seqLog]⟩
    | suspendLock f h hm => exact ⟨w, hw1, hidle, hrun⟩
    | suspendEmplace f h hm => exact ⟨w, hw1, hidle, hrun⟩
    | dtorLock hd hm => exact ⟨w, hw1, hidle, hrun⟩
    | dtorStop hd hm => exact ⟨w, hw1, hidle, hrun⟩
    | dtorJoin hd hx => exact ⟨w, hw1, hidle, hrun⟩
  · exact ⟨WorkerPc.atTop, by simp [create], fun _ => by simp [create, seqLog], by simp⟩

theorem popped_split {popped tasks p1 p2 p3 : List Entry} {A B : Entry}
    (hf : popped ++ tasks = p1 ++ A :: (p2 ++ B :: p3)) (hnd : (popped ++ tasks).Nodup)
    (hB : B ∈ popped) : ∃ c, popped = p1 ++ A :: (p2 ++ B :: c) := by
  have hB' : B ∉ tasks := fun ht => (List.nodup_append.mp hnd).2.2 hB ht
  have hf' : popped ++ tasks = (p1 ++ A :: p2) ++ B :: p3 := by simp [hf]
  rcases List.append_eq_append_iff.mp hf' with ⟨a', h1, h2⟩ | ⟨c', h1, h2⟩
  · exact absurd (by simp [h2]) hB'
  · cases c' with
    | nil =>
      simp at h2
      exact absurd (by simp [← h2]) hB'
    | cons x c' =>
      simp at h2
      obtain ⟨rfl, _⟩ := h2
      exact ⟨c', by simp [h1]⟩

/-- C2: in every reachable state (any number of workers) the entries popped
so far followed by the entries still queued are the entries pushed so far, in
push order; and in a pool with exactly one worker, whenever `A` was pushed
before `B` and `B` has begun, `task()` of `A` returned strictly before `task()`
of `B` was entered. -/
theorem C2_push_order_delivery :
    (∀ threads s, Reachable threads s → s.popped ++ s.tasks = s.pushed) ∧
    (∀ s, Reachable 1 s → ∀ (A B : Entry) (p1 p2 p3 : List Entry),
      s.pushed = p1 ++ A :: (p2 ++ B :: p3) → Ev.begin 0 B ∈ s.log →
      ∃ l1 l2 l3, s.log = l1 ++ Ev.done 0 A :: (l2 ++ Ev.begin 0 B :: l3)) := by
  refine ⟨fun threads s h => (inv_reachable h).fifo, ?_⟩
  intro s h A B p1 p2 p3 hpush hB
  have hi := inv_reachable h
  have hnd : (s.popped ++ s.tasks).Nodup := by rw [hi.fifo]; exact pushed_nodup hi
  have hf : s.popped ++ s.tasks = p1 ++ A :: (p2 ++ B :: p3) := by rw [hi.fifo, hpush]
  obtain ⟨w, hw, hidle, hrun⟩ := single_worker_shape s h
  by_cases hr : ∃ e, w = WorkerPc.running e
  · obtain ⟨e, rfl⟩ := hr
    obtain ⟨hpop, acts, _, hlog⟩ := hrun e rfl
    have hBp : B ∈ s.popped := by
      rw [hlog] at hB
      simp only [List.mem_append, List.mem_cons, List.mem_map] at hB
      rcases hB with hB | hB | ⟨a, _, ha⟩
      · rw [hpop]
        exact List.mem_append_left _ (begin_mem_seqLog hB)
      · cases hB
        simp [hpop]
      · cases ha
    obtain ⟨c, hc⟩ := popped_split hf hnd hBp
    rw [hpop] at hc
    rcases List.eq_nil_or_concat c with rfl | ⟨c', x, rfl⟩
    · have hc' : s.executed ++ [e] = (p1 ++ A :: p2) ++ [B] := by simp [hc]
      obtain ⟨hex, he⟩ := List.append_inj' hc' rfl
      simp only [List.cons.injEq, and_true] at he
      subst he
      refine ⟨seqLog 0 p1 ++ Ev.begin 0 A :: A.invoke.actions.map (Ev.act 0), seqLog 0 p2,
        acts.map (Ev.act 0), ?_⟩
      rw [hlog, hex]
      simp [seqLog_append, seqLog]
    · have hc' : s.executed ++ [e] = (p1 ++ A :: (p2 ++ B :: c')) ++ [x] := by
        simp [hc, List.concat_eq_append]
      obtain ⟨hex, _⟩ := List.append_inj' hc' rfl
      obtain ⟨l1, l2, l3, hl⟩ := seqLog_ordered 0 A B p1 p2 c'
      refine ⟨l1, l2, l3 ++ Ev.begin 0 e :: acts.map (Ev.act 0), ?_⟩
      rw [hlog, hex, hl]
      simp
  · have hne : ∀ e, w ≠ WorkerPc.running e := fun e he => hr ⟨e, he⟩
    obtain ⟨hpop, hlog⟩ := hidle hne
    have hBp : B ∈ s.popped := by
      rw [hlog] at hB
      rw [hpop]
      exact begin_mem_seqLog hB
    obtain ⟨c, hc⟩ := popped_split hf hnd hBp
    rw [hlog, ← hpop, hc]
    exact seqLog_ordered 0 A B p1 p2 c

/-- C2 at `fifoRun`: `entryA` was pushed before `entryB`, the single worker has
entered `entryB`, and `entryA` was done before that. -/
theorem C2_push_order_delivery_witness :
    Reachable 1 (after 1 fifoRun) ∧
    (after 1 fifoRun).pushed = [] ++ entryA :: ([] ++ entryB :: []) ∧
    Ev.begin 0 entryB ∈ (after 1 fifoRun).log ∧
    (after 1 fifoRun).popped ++ (after 1 fifoRun).tasks = (after 1 fifoRun).pushed ∧
    ∃ l1 l2 l3, (after 1 fifoRun).log
      = l1 ++ Ev.done 0 entryA :: (l2 ++ Ev.begin 0 entryB :: l3) :=
  ⟨reachable_after (s := after 1 fifoRun) (by decide), by decide, by decide,
    C2_push_order_delivery.1 1 (after 1 fifoRun)
      (reachable_after (s := after 1 fifoRun) (by decide)),
    C2_push_order_delivery.2 (after 1 fifoRun)
      (reachable_after (s := after 1 fifoRun) (by decide)) entryA entryB [] [] []
      (by decide) (by decide)⟩

/-! ## C3: what happens to the entries queued at shutdown -/

theorem workers_length {threads : Nat} {s : Pool} (h : Reachable threads s) :
    s.workers.length = threads := by
  obtain ⟨ls, hls⟩ := h
  refine run_induct (fun s => s.workers.length = threads) ?_ (by simp [create]) hls
  intro s l s' hP hs
  cases hs <;> simp [hP, await_suspend]

theorem no_exit_before_stop {threads : Nat} {s : Pool} (h : Reachable threads s) :
    s.stop = false → ∀ w ∈ s.workers, w ≠ WorkerPc.exited := by
  obtain ⟨ls, hls⟩ := h
  refine run_induct (fun s => s.stop = false → ∀ w ∈ s.workers, w ≠ WorkerPc.exited)
    ?_ (by simp [create]) hls
  intro s l s' hP hs
  cases hs with
  | workerLock i hw hm =>
    intro h0 w hw'
    rcases List.mem_or_eq_of_mem_set hw' with h1 | h1
    · exact hP h0 w h1
    · simp [h1]
  | workerWake i hw hm =>
    intro h0 w hw'
    rcases List.mem_or_eq_of_mem_set hw' with h1 | h1
    · exact hP h0 w h1
    · simp [h1]
  | workerBlock i hw hm hc =>
    intro h0 w hw'
    rcases List.mem_or_eq_of_mem_set hw' with h1 | h1
    · exact hP h0 w h1
    · simp [h1]
  | workerExit i hw hm hc =>
    intro h0
    have := (locked_cases.2.1.mp hc).1
    simp only at h0
    simp [this] at h0
  | workerPop i e rest hw hm hc =>
    intro h0 w hw'
    rcases List.mem_or_eq_of_mem_set hw' with h1 | h1
    · exact hP h0 w h1
    · simp [h1]
  | workerFault i e hw hf => exact hP
  | workerDone i e hw hf =>
    intro h0 w hw'
    rcases List.mem_or_eq_of_mem_set hw' with h1 | h1
    · exact hP h0 w h1
    · simp [h1]
  | suspendLock f h hm => exact hP
  | suspendEmplace f h hm => exact hP
  | dtorLock hd hm => exact hP
  | dtorStop hd hm => intro h0; simp at h0
  | dtorJoin hd hx => exact hP

/-- An entry that is queued while no worker has returned is popped before any
worker returns. -/
theorem popped_before_exit (e : Entry) {s s' : Pool} {ls : List Label}
    (hi : Inv s) (he : e ∈ s.pushed)
    (h0 : e ∈ s.popped ∨ ∀ w ∈ s.workers, w ≠ WorkerPc.exited)
    (h : run s ls = some s') :
    Inv s' ∧ e ∈ s'.pushed ∧ (e ∈ s'.popped ∨ ∀ w ∈ s'.workers, w ≠ WorkerPc.exited) := by
  refine run_induct (fun s => Inv s ∧ e ∈ s.pushed ∧
    (e ∈ s.popped ∨ ∀ w ∈ s.workers, w ≠ WorkerPc.exited)) ?_ ⟨hi, he, h0⟩ h
  intro s l s' hP hs
  obtain ⟨hi, he, h0⟩ := hP
  refine ⟨inv_step hi hs, ?_⟩
  cases hs with
  | workerLock i hw hm =>
    refine ⟨he, h0.imp id ?_⟩
    intro hP w hw'
    rcases List.mem_or_eq_of_mem_set hw' with h1 | h1
    · exact hP w h1
    · simp [h1]
  | workerWake i hw hm =>
    refine ⟨he, h0.imp id ?_⟩
    intro hP w hw'
    rcases List.mem_or_eq_of_mem_set hw' with h1 | h1
    · exact hP w h1
    · simp [h1]
  | workerBlock i hw hm hc =>
    refine ⟨he, h0.imp id ?_⟩
    intro hP w hw'
    rcases List.mem_or_eq_of_mem_set hw' with h1 | h1
    · exact hP w h1
    · simp [h1]
  | workerExit i hw hm hc =>
    refine ⟨he, Or.inl ?_⟩
    have ht := (locked_cases.2.1.mp hc).2
    have := hi.fifo
    rw [ht, List.append_nil] at this
    simp only
    rw [this]
    exact he
  | workerPop i e' rest hw hm hc =>
    refine ⟨he, ?_⟩
    rcases h0 with h0 | h0
    · exact Or.inl (by simp [h0])
    · right
      intro w hw'
      rcases List.mem_or_eq_of_mem_set hw' with h1 | h1
      · exact h0 w h1
      · simp [h1]
  | workerFault i e' hw hf => exact ⟨he, h0⟩
  | workerDone i e' hw hf =>
    refine ⟨he, h0.imp id ?_⟩
    intro hP w hw'
    rcases List.mem_or_eq_of_mem_set hw' with h1 | h1
    · exact hP w h1
    · simp [h1]
  | suspendLock f h hm => exact ⟨he, h0⟩
  | suspendEmplace f h hm => exact ⟨by simp [await_suspend, he], h0⟩
  | dtorLock hd hm => exact ⟨he, h0⟩
  | dtorStop hd hm => exact ⟨he, h0⟩
  | dtorJoin hd hx => exact ⟨he, h0⟩

/-- Once every worker has returned nothing is popped or executed any more. -/
theorem frozen_after_exit {s s' : Pool} {ls : List Label}
    (hx : ∀ w ∈ s.workers, w = WorkerPc.exited) (h : run s ls = some s') :
    s'.workers = s.workers ∧ s'.executed = s.executed ∧ s'.popped = s.popped ∧
      s'.log = s.log ∧ s.tasks <+: s'.tasks := by
  refine run_induct (fun t => t.workers = s.workers ∧ t.executed = s.executed ∧
    t.popped = s.popped ∧ t.log = s.log ∧ s.tasks <+: t.tasks) ?_
    ⟨rfl, rfl, rfl, rfl, List.prefix_refl _⟩ h
  intro t l t' hP hs
  obtain ⟨hw0, hex, hpop, hlog, hpre⟩ := hP
  have hno : ∀ (i : Nat) (x : WorkerPc), t.workers[i]? = some x → x = WorkerPc.exited := by
    intro i x hx'
    rw [hw0] at hx'
    obtain ⟨h1, h2⟩ := List.getElem?_eq_some.mp hx'
    exact h2 ▸ hx _ (List.getElem_mem h1)
  cases hs with
  | workerLock i hw hm => exact absurd (hno i _ hw) (by simp)
  | workerWake i hw hm => exact absurd (hno i _ hw) (by simp)
  | workerBlock i hw hm hc => exact absurd (hno i _ hw) (by simp)
  | workerExit i hw hm hc => exact absurd (hno i _ hw) (by simp)
  | workerPop i e rest hw hm hc => exact absurd (hno i _ hw) (by simp)
  | workerFault i e hw hf => exact absurd (hno i _ hw) (by simp)
  | workerDone i e hw hf => exact absurd (hno i _ hw) (by simp)
  | suspendLock f h hm => exact ⟨hw0, hex, hpop, hlog, hpre⟩
  | suspendEmplace f h hm =>
    exact ⟨hw0, hex, hpop, hlog, hpre.trans (by simp [await_suspend])⟩
  | dtorLock hd hm => exact ⟨hw0, hex, hpop, hlog, hpre⟩
  | dtorStop hd hm => exact ⟨hw0, hex, hpop, hlog, hpre⟩
  | dtorJoin hd hx => exact ⟨hw0, hex, hpop, hlog, hpre⟩

/-- C3 as stated fails: after `shutdownRun` the destructor has written `stop`
while `entryA` is still queued and no worker has popped it; the worker then
locks the mutex, pops `entryA` and runs it, so a queued-but-unstarted entry is
executed after shutdown. -/
theorem C3_abandoned_at_shutdown_counterexample :
    Reachable 1 (after 1 shutdownRun) ∧
    (after 1 shutdownRun).stop = true ∧
    (after 1 shutdownRun).tasks = [entryA] ∧
    (after 1 shutdownRun).popped = [] ∧
    (after 1 shutdownRun).workers = [WorkerPc.atTop] ∧
    run (after 1 shutdownRun) drainRun = some (after 1 (shutdownRun ++ drainRun)) ∧
    entryA ∈ (after 1 (shutdownRun ++ drainRun)).executed ∧
    Ev.act 0 (Action.call workA) ∈ (after 1 (shutdownRun ++ drainRun)).log ∧
    ¬ (∀ (threads : Nat) (s s' : Pool) (ls : List Label) (e : Entry),
        Reachable threads s → s.stop = true → e ∈ s.tasks → run s ls = some s' →
        e ∉ s'.executed) :=
  ⟨reachable_after (s := after 1 shutdownRun) (by decide), by decide, by decide, by decide,
    by decide, by decide, by decide, by decide,
    fun hall => hall 1 (after 1 shutdownRun) (after 1 (shutdownRun ++ drainRun)) drainRun
      entryA (reachable_after (s := after 1 shutdownRun) (by decide)) (by decide)
      (by decide) (by decide) (by decide)⟩

/-- An entry queued when the destructor writes `stop` is, in every later state,
popped already or still waiting with no worker returned. -/
theorem queued_at_stop {threads : Nat} {s1 s2 s3 : Pool} {ls : List Label} {e : Entry}
    (h1 : Reachable threads s1) (hstep : step s1 Label.dtorStop = some s2)
    (hrun : run s2 ls = some s3) (he : e ∈ s2.tasks) :
    Inv s3 ∧ e ∈ s3.pushed ∧ (e ∈ s3.popped ∨ ∀ w ∈ s3.workers, w ≠ WorkerPc.exited) := by
  have hi1 := inv_reachable h1
  have hs := step_sound hstep
  have hi2 := inv_step hi1 hs
  have hne1 : ∀ w ∈ s1.workers, w ≠ WorkerPc.exited := by
    apply no_exit_before_stop h1
    cases hstop : s1.stop with
    | false => rfl
    | true =>
      have hdt := hi1.stopD.mp hstop
      cases hs with
      | dtorStop hd' hm => simp [hd'] at hdt
  have hw12 : s2.workers = s1.workers := by
    cases hs with
    | dtorStop hd' hm => rfl
  have hpush : e ∈ s2.pushed := by
    rw [← hi2.fifo]
    exact List.mem_append_right _ he
  exact popped_before_exit e hi2 hpush (Or.inr (hw12 ▸ hne1)) hrun

/-- C3, amended: setting `stop` does not make the workers skip queued entries.
A worker holding the mutex with a non-empty queue pops the head and goes on to
run it, also when `stop` is set.  No worker returns while an entry that was
queued when the destructor wrote `stop` is still queued: in every later state
such an entry has been executed, or is in flight, or is still queued with no
worker returned.  In a pool with at least one worker, whenever the destructor
has returned, every such entry has been executed.  From a state in which every
worker has returned nothing is popped or executed any more and the queued
entries stay queued. -/
theorem C3_shutdown_drains_queue :
    (∀ (e : Entry) (rest : List Entry), worker_loop_locked true (e :: rest) = Crit.run e rest) ∧
    (∀ (s s' : Pool) (i : Nat), step s (Label.workerLocked i) = some s' → s.tasks ≠ [] →
      ∃ e, s.tasks = e :: s'.tasks ∧ s'.workers[i]? = some (WorkerPc.running e)) ∧
    (∀ (threads : Nat) (s1 s2 s3 : Pool) (ls : List Label),
      Reachable threads s1 → step s1 Label.dtorStop = some s2 → run s2 ls = some s3 →
      ∀ e ∈ s2.tasks, e ∈ s3.executed ∨ e ∈ inflight s3.workers ∨
        (e ∈ s3.tasks ∧ ∀ w ∈ s3.workers, w ≠ WorkerPc.exited)) ∧
    (∀ (threads : Nat) (s1 s2 s3 : Pool) (ls : List Label), 0 < threads →
      Reachable threads s1 → step s1 Label.dtorStop = some s2 → run s2 ls = some s3 →
      s3.dtor = DtorPc.destroyed → ∀ e ∈ s2.tasks, e ∈ s3.executed) ∧
    (∀ (threads : Nat) (s s' : Pool) (ls : List Label), Reachable threads s →
      (∀ w ∈ s.workers, w = WorkerPc.exited) → run s ls = some s' →
      s'.executed = s.executed ∧ s'.popped = s.popped ∧ s'.log = s.log ∧
        s.tasks <+: s'.tasks) := by
  refine ⟨fun e rest => rfl, ?_, ?_, ?_, ?_⟩
  · intro s s' i hs hne
    have hS := step_sound hs
    cases hS with
    | workerBlock _ hw hm hc => exact absurd (locked_cases.1.mp hc).2 hne
    | workerExit _ hw hm hc => exact absurd (locked_cases.2.1.mp hc).2 hne
    | workerPop _ e rest hw hm hc =>
      have hlt : i < s.workers.length := (List.getElem?_eq_some.mp hw).1
      have ht := (locked_cases.2.2.1 e rest).mp hc
      exact ⟨e, by simp [ht], by simp [hlt]⟩
  · intro threads s1 s2 s3 ls h1 hstep hrun e he
    obtain ⟨hi3, hpush, h3⟩ := queued_at_stop h1 hstep hrun he
    have hpop : e ∈ s3.popped → e ∈ s3.executed ∨ e ∈ inflight s3.workers := by
      intro hp
      exact List.mem_append.mp (hi3.perm.symm.subset hp)
    rw [← hi3.fifo] at hpush
    rcases List.mem_append.mp hpush with hp | ht
    · rcases hpop hp with h | h
      · exact Or.inl h
      · exact Or.inr (Or.inl h)
    · rcases h3 with hp | hno
      · rcases hpop hp with h | h
        · exact Or.inl h
        · exact Or.inr (Or.inl h)
      · exact Or.inr (Or.inr ⟨ht, hno⟩)
  · intro threads s1 s2 s3 ls hpos h1 hstep hrun hd e he
    obtain ⟨hi3, _, h3⟩ := queued_at_stop h1 hstep hrun he
    have h2 : Reachable threads s2 :=
      @reachable_run threads s1 s2 [Label.dtorStop] h1 (by simp [run, hstep])
    have hx := hi3.joined hd
    have hlen : s3.workers.length = threads := workers_length (reachable_run h2 hrun)
    have hpop : e ∈ s3.popped := by
      rcases h3 with h3 | h3
      · exact h3
      · cases hws : s3.workers with
        | nil => simp [hws] at hlen; omega
        | cons w ws =>
          have hw : w ∈ s3.workers := by simp [hws]
          exact absurd (hx w hw) (h3 w hw)
    have hperm := hi3.perm
    rw [inflight_all_exited s3.workers hx, List.append_nil] at hperm
    exact hperm.symm.subset hpop
  · intro threads s s' ls _ hx hrun
    exact (frozen_after_exit hx hrun).2

/-- C3, amended, at a concrete shutdown: the destructor writes `stop` with
`entryA` queued, and `entryA` has been executed when the destructor returns. -/
theorem C3_shutdown_drains_queue_witness :
    0 < 1 ∧ Reachable 1 (after 1 preStopRun) ∧
    step (after 1 preStopRun) Label.dtorStop = some (after 1 shutdownRun) ∧
    run (after 1 shutdownRun) joinRun = some (after 1 (shutdownRun ++ joinRun)) ∧
    (after 1 (shutdownRun ++ joinRun)).dtor = DtorPc.destroyed ∧
    entryA ∈ (after 1 shutdownRun).tasks ∧
    entryA ∈ (after 1 (shutdownRun ++ joinRun)).executed :=
  ⟨by decide, reachable_after (s := after 1 preStopRun) (by decide), by decide, by decide,
    by decide, by decide,
    C3_shutdown_drains_queue.2.2.2.1 1 (after 1 preStopRun) (after 1 shutdownRun)
      (after 1 (shutdownRun ++ joinRun)) joinRun (by decide)
      (reachable_after (s := after 1 preStopRun) (by decide)) (by decide) (by decide)
      (by decide) entryA (by decide)⟩

/-! ## C4: a pool without workers -/

theorem run_submissions (subs : List (Work × Handle)) (s : Pool)
    (hl : s.terminated = false) (hd : s.dtor ≠ DtorPc.destroyed) (hm : s.queue_mutex = none) :
    ∃ s', run s (submissions subs) = some s' ∧
      s'.tasks.map (fun e => (e.func, e.h)) = s.tasks.map (fun e => (e.func, e.h)) ++ subs := by
  induction subs generalizing s with
  | nil => exact ⟨s, rfl, by simp⟩
  | cons x subs ih =>
    obtain ⟨f, h⟩ := x
    have h1 : step s (Label.suspendLock f h)
        = some { s with queue_mutex := some (Holder.producer f h) } := by
      simp [step, hl, hd, hm]
    have h2 : step { s with queue_mutex := some (Holder.producer f h) } Label.suspendEmplace
        = some (await_suspend s f h) := by
      simp [step, hl, hd, await_suspend, hm]
    obtain ⟨s', hs', ht⟩ := ih (await_suspend s f h) (by simp [await_suspend, hl])
      (by simp [await_suspend, hd]) (by simp [await_suspend, hm])
    refine ⟨s', ?_, ?_⟩
    · simp [submissions, run, h1, h2, hs']
    · rw [ht]
      simp [await_suspend]

/-- C4: in a pool constructed with `threadCount = 0`, every sequence of
submissions is accepted and queued in order, and in every reachable state
there is no worker, nothing has been popped or executed, no action (so no
resume of a continuation) has been logged, the queue holds everything that was
pushed, and every further step only extends the queue. -/
theorem C4_zero_workers_never_execute :
    (∀ subs : List (Work × Handle), ∃ s, run (create 0) (submissions subs) = some s ∧
      s.tasks.map (fun e => (e.func, e.h)) = subs) ∧
    (∀ s, Reachable 0 s →
      s.workers = [] ∧ s.popped = [] ∧ s.executed = [] ∧ s.log = [] ∧ s.tasks = s.pushed ∧
      (∀ (w : Nat) (hd : Handle), Ev.act w (Action.resume hd) ∉ s.log) ∧
      ∀ l s', step s l = some s' →
        s.tasks <+: s'.tasks ∧ s'.popped = [] ∧ s'.executed = [] ∧ s'.log = []) := by
  constructor
  · intro subs
    obtain ⟨s, hs, ht⟩ := run_submissions subs (create 0) rfl (by simp [create]) rfl
    exact ⟨s, hs, by simpa [create] using ht⟩
  · intro s h
    have hi := inv_reachable h
    obtain ⟨ls, hls⟩ := h
    have h0 : ∀ w ∈ (create 0).workers, w = WorkerPc.exited := by simp [create]
    obtain ⟨hw, hex, hpop, hlog, _⟩ := frozen_after_exit h0 hls
    have hw' : s.workers = [] := by simpa [create] using hw
    have hex' : s.executed = [] := by simpa [create] using hex
    have hpop' : s.popped = [] := by simpa [create] using hpop
    have hlog' : s.log = [] := by simpa [create] using hlog
    refine ⟨hw', hpop', hex', hlog', ?_, by simp [hlog'], ?_⟩
    · have := hi.fifo
      simpa [hpop'] using this
    · intro l s' hstep
      have hx : ∀ w ∈ s.workers, w = WorkerPc.exited := by simp [hw']
      have hr : run s [l] = some s' := by simp [run, hstep]
      obtain ⟨_, h1, h2, h3, h4⟩ := frozen_after_exit hx hr
      exact ⟨h4, by rw [h2, hpop'], by rw [h1, hex'], by rw [h3, hlog']⟩

/-- C4 at two submissions into a pool without workers. -/
theorem C4_zero_workers_never_execute_witness :
    Reachable 0 (after 0 (submissions [(workA, contA), (workB, contNull)])) ∧
    (after 0 (submissions [(workA, contA), (workB, contNull)])).tasks = [entryA, entryB] ∧
    (after 0 (submissions [(workA, contA), (workB, contNull)])).executed = [] ∧
    (after 0 (submissions [(workA, contA), (workB, contNull)])).log = [] :=
  ⟨reachable_after (s := after 0 (submissions [(workA, contA), (workB, contNull)]))
      (by decide), by decide,
    (C4_zero_workers_never_execute.2 _
      (reachable_after (s := after 0 (submissions [(workA, contA), (workB, contNull)]))
        (by decide))).2.2.1,
    (C4_zero_workers_never_execute.2 _
      (reachable_after (s := after 0 (submissions [(workA, contA), (workB, contNull)]))
        (by decide))).2.2.2.1⟩

/-! ## C5: a fault is fatal to the process -/

theorem step_terminated (s : Pool) (l : Label) (h : s.terminated = true) : step s l = none := by
  simp [step, h]

theorem run_terminated {s s' : Pool} {ls : List Label} (h : s.terminated = true)
    (hr : run s ls = some s') : s' = s := by
  cases ls with
  | nil => simpa [run] using hr.symm
  | cons l ls => simp [run, step_terminated s l h] at hr

/-- C5: when worker `i` of a live reachable pool is inside `task()` of an entry
whose work closure raises, or whose present continuation raises when resumed,
the call is enabled and its only outcome is the terminated process: the worker
does not go back to the top of its loop, the entry is not counted as executed,
the queue is untouched, and from then on no thread takes any step, so no
later entry is popped or executed by any worker. -/
theorem C5_fault_is_fatal (threads : Nat) (s : Pool) (i : Nat) (e : Entry)
    (h : Reachable threads s) (hlive : s.terminated = false)
    (hw : s.workers[i]? = some (WorkerPc.running e))
    (hf : e.func.raises = true ∨ (e.h.toBool = true ∧ e.h.raises = true)) :
    e.invoke.fault = true ∧
    ∃ s', step s (Label.workerTask i) = some s' ∧
      s'.terminated = true ∧
      s'.workers = s.workers ∧ s'.workers[i]? = some (WorkerPc.running e) ∧
      s'.executed = s.executed ∧ s'.popped = s.popped ∧ s'.tasks = s.tasks ∧
      (∀ l, step s' l = none) ∧
      (∀ ls s'', run s' ls = some s'' →
        s'' = s' ∧ s''.executed = s.executed ∧ s''.popped = s.popped) := by
  have hi := inv_reachable h
  have hfault : e.invoke.fault = true := by
    rcases hf with hf | ⟨h1, h2⟩
    · simp [Entry.invoke, hf]
    · cases hr : e.func.raises <;> simp [Entry.invoke, hr, h1, h2]
  have hd : s.dtor ≠ DtorPc.destroyed := by
    intro hd
    obtain ⟨h1, h2⟩ := List.getElem?_eq_some.mp hw
    have := hi.joined hd _ (List.getElem_mem h1)
    simp [h2] at this
  refine ⟨hfault, { s with terminated := true
                           log := s.log ++ e.invoke.actions.map (Ev.act i) }, ?_, rfl, rfl,
    hw, rfl, rfl, rfl, fun l => step_terminated _ l rfl, ?_⟩
  · simp [step, hlive, hd, hw, hfault]
  · intro ls s'' hr
    have := run_terminated (s := { s with terminated := true
                                          log := s.log ++ e.invoke.actions.map (Ev.act i) })
      rfl hr
    subst this
    exact ⟨rfl, rfl, rfl⟩

/-- C5 at `faultRun`: worker 0 is inside the faulting entry, `entryB` is queued
behind it, and after the fault nothing is ever executed. -/
theorem C5_fault_is_fatal_witness :
    Reachable 2 (after 2 faultRun) ∧
    (after 2 faultRun).workers[0]? = some (WorkerPc.running ⟨0, workBad, contA⟩) ∧
    (after 2 faultRun).tasks = [entryB] ∧
    ∃ s', step (after 2 faultRun) (Label.workerTask 0) = some s' ∧ s'.terminated = true ∧
      ∀ l, step s' l = none :=
  ⟨reachable_after (s := after 2 faultRun) (by decide), by decide, by decide,
    match C5_fault_is_fatal 2 (after 2 faultRun) 0 ⟨0, workBad, contA⟩
      (reachable_after (s := after 2 faultRun) (by decide)) (by decide) (by decide)
      (Or.inl rfl) with
    | ⟨_, s', h1, h2, _, _, _, _, _, h3, _⟩ => ⟨s', h1, h2, h3⟩⟩

/-! ## C6: the stop flag -/

theorem pastStop_step {s s' : Pool} {l : Label} (h : Step s l s') :
    s.dtor.pastStop + (if l = Label.dtorStop then 1 else 0) = s'.dtor.pastStop := by
  cases h <;> simp_all [DtorPc.pastStop, await_suspend]

theorem pastStop_run {s s' : Pool} {ls : List Label} (h : run s ls = some s') :
    s.dtor.pastStop + ls.count Label.dtorStop = s'.dtor.pastStop := by
  induction ls generalizing s with
  | nil =>
    simp [run] at h
    simp [h]
  | cons l ls ih =>
    rw [run_cons] at h
    cases hs : step s l with
    | none => simp [hs] at h
    | some s1 =>
      rw [hs] at h
      have h1 := pastStop_step (step_sound hs)
      have h2 := ih h
      rw [List.count_cons]
      by_cases hl : l = Label.dtorStop
      · simp [hl] at h1 ⊢
        omega
      · have : (l == Label.dtorStop) = false := by simpa using hl
        simp [hl] at h1
        simp [this]
        omega

theorem pastStop_le (d : DtorPc) : d.pastStop ≤ 1 := by
  cases d <;> simp [DtorPc.pastStop]

/-- C6: `stop` is false in the state the constructor produces; a step that
changes `stop` is the destructor's write at line 52 and changes it from false
to true, so no step of `await_suspend` or of `worker_loop` changes it; once
true it is true in every later state of every run; and a run from the
constructor contains the destructor's write at most once. -/
theorem C6_stop_flag_monotonic :
    (∀ threads, (create threads).stop = false) ∧
    (∀ s l s', step s l = some s' → s'.stop ≠ s.stop →
      l = Label.dtorStop ∧ s.stop = false ∧ s'.stop = true) ∧
    (∀ s f h s', step s (Label.suspendLock f h) = some s' → s'.stop = s.stop) ∧
    (∀ s s', step s Label.suspendEmplace = some s' → s'.stop = s.stop) ∧
    (∀ p f h, (await_suspend p f h).stop = p.stop) ∧
    (∀ s i s', step s (Label.workerLock i) = some s' ∨ step s (Label.workerLocked i) = some s' ∨
      step s (Label.workerWake i) = some s' ∨ step s (Label.workerTask i) = some s' →
      s'.stop = s.stop) ∧
    (∀ s ls s', run s ls = some s' → s.stop = true → s'.stop = true) ∧
    (∀ threads ls s, run (create threads) ls = some s → ls.count Label.dtorStop ≤ 1) := by
  have key : ∀ s l s', step s l = some s' → s'.stop ≠ s.stop →
      l = Label.dtorStop ∧ s.stop = false ∧ s'.stop = true := by
    intro s l s' hs hne
    have hS := step_sound hs
    cases hS <;> first
      | exact absurd rfl hne
      | (refine ⟨rfl, ?_, rfl⟩
         cases hst : s.stop with
         | false => rfl
         | true => simp [hst] at hne)
  have keep : ∀ s l s', step s l = some s' → l ≠ Label.dtorStop → s'.stop = s.stop := by
    intro s l s' hs hl
    by_contra hne
    exact hl (key s l s' hs hne).1
  refine ⟨fun _ => rfl, key, ?_, ?_, fun _ _ _ => rfl, ?_, ?_, ?_⟩
  · intro s f h s' hs
    exact keep _ _ _ hs (by simp)
  · intro s s' hs
    exact keep _ _ _ hs (by simp)
  · intro s i s' hs
    rcases hs with hs | hs | hs | hs <;> exact keep _ _ _ hs (by simp)
  · intro s ls s' hr hst
    refine run_induct (fun t => t.stop = true) ?_ hst hr
    intro t l t' ht hS
    cases hS <;> first | exact ht | rfl
  · intro threads ls s hr
    have h1 := pastStop_run hr
    have h2 := pastStop_le s.dtor
    omega

/-- C6 along `busyRun`, which contains the destructor's write once: `stop` is
true at its end and stays true over the worker's later steps. -/
theorem C6_stop_flag_monotonic_witness :
    (after 2 busyRun).stop = true ∧ busyRun.count Label.dtorStop ≤ 1 ∧
    (after 2 (busyRun ++ [Label.workerTask 0])).stop = true :=
  ⟨by decide, C6_stop_flag_monotonic.2.2.2.2.2.2.2 2 busyRun (after 2 busyRun) (by decide),
    C6_stop_flag_monotonic.2.2.2.2.2.2.1 (after 2 busyRun) [Label.workerTask 0]
      (after 2 (busyRun ++ [Label.workerTask 0])) (by decide) (by decide)⟩

/-! ## C7: the body of a queue entry -/

/-- C8: for every pool state, work closure and handle, the critical section of
`await_suspend` yields the old queue with exactly one new entry, built from the
closure and the handle, appended at the tail; the entries already queued, the
stop flag, the workers and every other member are unchanged; and in every live
state with the mutex free, whatever the queue, the stop flag and the workers,
the two steps of the suspend step are enabled and yield exactly that state. -/
theorem C8_submit_cannot_fail (p : Pool) (f : Work) (h : Handle) :
    (await_suspend p f h).tasks = p.tasks ++ [Entry.mk p.pushed.length f h] ∧
    (await_suspend p f h).tasks.length = p.tasks.length + 1 ∧
    (await_suspend p f h).tasks.take p.tasks.length = p.tasks ∧
    (await_suspend p f h).stop = p.stop ∧
    (await_suspend p f h).workers = p.workers ∧
    (await_suspend p f h).dtor = p.dtor ∧
    (await_suspend p f h).terminated = p.terminated ∧
    (await_suspend p f h).queue_mutex = p.queue_mutex ∧
    (await_suspend p f h).popped = p.popped ∧
    (await_suspend p f h).executed = p.executed ∧
    (p.terminated = false → p.dtor ≠ DtorPc.destroyed → p.queue_mutex = none →
      run p [Label.suspendLock f h, Label.suspendEmplace] = some (await_suspend p f h)) := by
  refine ⟨rfl, by simp [await_suspend], by simp [await_suspend], rfl, rfl, rfl, rfl, rfl, rfl,
    rfl, ?_⟩
  intro hl hd hm
  have h1 : step p (Label.suspendLock f h)
      = some { p with queue_mutex := some (Holder.producer f h) } := by
    simp [step, hl, hd, hm]
  have h2 : step { p with queue_mutex := some (Holder.producer f h) } Label.suspendEmplace
      = some (await_suspend p f h) := by
    simp [step, hl, hd, await_suspend, hm]
  simp [run, h1, h2]

/-- C8 at the end of `busyRun`: the stop flag is set, one worker is inside
`task()`, an entry is queued, and a further submission is still accepted. -/
theorem C8_submit_cannot_fail_witness :
    (after 2 busyRun).stop = true ∧ (after 2 busyRun).tasks.length = 1 ∧
    run (after 2 busyRun) [Label.suspendLock workB contA, Label.suspendEmplace]
      = some (await_suspend (after 2 busyRun) workB contA) :=
  ⟨by decide, by decide,
    (C8_submit_cannot_fail (after 2 busyRun) workB contA).2.2.2.2.2.2.2.2.2.2
      (by decide) (by decide) (by decide)⟩

/-! ## C10: the worker's step rule -/

theorem workerLocked_enabled (s : Pool) (i : Nat) (hl : s.terminated = false)
    (hd : s.dtor ≠ DtorPc.destroyed) (hw : s.workers[i]? = some WorkerPc.locked)
    (hm : s.queue_mutex = some (Holder.worker i)) :
    ∃ s', step s (Label.workerLocked i) = some s' ∧ s'.queue_mutex = none := by
  cases hst : s.stop <;> cases ht : s.tasks <;>
    simp [step, hl, hd, hw, hm, worker_loop_locked, hst, ht]

/-- C10: on any values of `stop` and the queue, lines 98-103 never read the
front of an empty queue; a worker past the wait (stop set or queue non-empty)
returns if and only if stop is set and the queue is empty, and otherwise the
queue is non-empty and the worker removes exactly its head, the rest keeping
its order; the worker stays in the wait exactly when stop is clear and the
queue is empty.  In the pool, the step of a worker holding the mutex is always
enabled, a worker that returns leaves an empty queue behind with stop set, and
a worker that starts an entry took the head of the queue. -/
theorem C10_worker_step_rule (stop : Bool) (tasks : List Entry) :
    worker_loop_locked stop tasks ≠ Crit.emptyFront ∧
    (worker_loop_locked stop tasks = Crit.block ↔ (stop || !tasks.isEmpty) = false) ∧
    ((stop || !tasks.isEmpty) = true →
      (worker_loop_locked stop tasks = Crit.exit ↔ (stop = true ∧ tasks = [])) ∧
      (¬ (stop = true ∧ tasks = []) →
        tasks ≠ [] ∧ ∃ e rest, tasks = e :: rest ∧
          worker_loop_locked stop tasks = Crit.run e rest)) ∧
    (∀ e rest, worker_loop_locked stop tasks = Crit.run e rest → tasks = e :: rest) ∧
    (tasks ≠ [] → worker_loop_locked stop tasks ≠ Crit.exit) ∧
    (∀ (s : Pool) (i : Nat), s.terminated = false → s.dtor ≠ DtorPc.destroyed →
      s.workers[i]? = some WorkerPc.locked → s.queue_mutex = some (Holder.worker i) →
      ∃ s', step s (Label.workerLocked i) = some s') ∧
    (∀ (s s' : Pool) (i : Nat), step s (Label.workerLocked i) = some s' →
      (s'.workers[i]? = some WorkerPc.exited → s.stop = true ∧ s.tasks = [] ∧ s'.tasks = []) ∧
      (∀ e, s'.workers[i]? = some (WorkerPc.running e) →
        s.tasks = e :: s'.tasks ∧ s'.popped = s.popped ++ [e])) := by
  refine ⟨?_, ?_, ?_, ?_, ?_, ?_, ?_⟩
  · cases stop <;> cases tasks <;> simp [worker_loop_locked]
  · cases stop <;> cases tasks <;> simp [worker_loop_locked]
  · cases stop <;> cases tasks <;> simp [worker_loop_locked]
  · cases stop <;> cases tasks <;> simp [worker_loop_locked]
  · cases stop <;> cases tasks <;> simp [worker_loop_locked]
  · intro s i hl hd hw hm
    obtain ⟨s', hs, _⟩ := workerLocked_enabled s i hl hd hw hm
    exact ⟨s', hs⟩
  · intro s s' i hs
    have hS := step_sound hs
    cases hS with
    | workerBlock _ hw hm hc =>
      have hlt : i < s.workers.length := (List.getElem?_eq_some.mp hw).1
      simp [hlt]
    | workerExit _ hw hm hc =>
      have hlt : i < s.workers.length := (List.getElem?_eq_some.mp hw).1
      have := locked_cases.2.1.mp hc
      simp [hlt, this]
    | workerPop _ e rest hw hm hc =>
      have hlt : i < s.workers.length := (List.getElem?_eq_some.mp hw).1
      have := (locked_cases.2.2.1 e rest).mp hc
      simp [hlt, this]

/-- C10 on a set stop flag and a queue of two entries: the worker is past the
wait, does not return, and pops the head. -/
theorem C10_worker_step_rule_witness :
    (true || !([entryA, entryB] : List Entry).isEmpty) = true ∧
    worker_loop_locked true [entryA, entryB] = Crit.run entryA [entryB] ∧
    worker_loop_locked true [entryA, entryB] ≠ Crit.exit :=
  ⟨rfl, rfl, (C10_worker_step_rule true [entryA, entryB]).2.2.2.2.1 (by decide)⟩

/-! ## C9: the mutex is not held while an entry runs -/

/-- C9: in every reachable state a worker inside `task()` does not own the
mutex, and a worker that owns it is between lines 97 and 104; in a live state
whoever owns the mutex releases it with its very next step, without waiting for
any running entry; and when the mutex is free, however many entries are
running, a producer can lock it to push and a worker at the top of its loop can
lock it to pop. -/
theorem C9_mutex_free_while_running (threads : Nat) (s : Pool) (h : Reachable threads s) :
    (∀ (i : Nat) (e : Entry), s.workers[i]? = some (WorkerPc.running e) →
      s.queue_mutex ≠ some (Holder.worker i)) ∧
    (∀ i : Nat, s.queue_mutex = some (Holder.worker i) → s.workers[i]? = some WorkerPc.locked) ∧
    (s.terminated = false → s.dtor ≠ DtorPc.destroyed →
      (∀ x, s.queue_mutex = some x → ∃ l s', step s l = some s' ∧ s'.queue_mutex = none) ∧
      (s.queue_mutex = none →
        (∀ f hd, ∃ s', step s (Label.suspendLock f hd) = some s') ∧
        (∀ j : Nat, s.workers[j]? = some WorkerPc.atTop →
          ∃ s', step s (Label.workerLock j) = some s'))) := by
  have hi := inv_reachable h
  refine ⟨?_, fun i hm => (hi.mutexW i).mp hm, ?_⟩
  · intro i e hw hm
    have := (hi.mutexW i).mp hm
    rw [hw] at this
    cases this
  · intro hl hd
    constructor
    · intro x hm
      cases x with
      | worker j =>
        obtain ⟨s', hs, hm'⟩ := workerLocked_enabled s j hl hd ((hi.mutexW j).mp hm) hm
        exact ⟨_, s', hs, hm'⟩
      | producer f hh =>
        exact ⟨Label.suspendEmplace, { await_suspend s f hh with queue_mutex := none },
          by simp [step, hl, hd, hm], rfl⟩
      | destructor =>
        have hdt := hi.mutexD.mp hm
        exact ⟨Label.dtorStop, { s with stop := true, dtor := DtorPc.joining, queue_mutex := none },
          by simp [step, hl, hdt, hm], rfl⟩
    · intro hm
      constructor
      · intro f hh
        exact ⟨{ s with queue_mutex := some (Holder.producer f hh) }, by simp [step, hl, hd, hm]⟩
      · intro j hw
        exact ⟨{ s with workers := s.workers.set j WorkerPc.locked
                        queue_mutex := some (Holder.worker j) }, by simp [step, hl, hd, hm, hw]⟩

/-- C9 at `runningRun`: worker 0 is inside `task()` of `entryA`, the mutex is
free, and meanwhile a producer pushes and worker 1 pops. -/
theorem C9_mutex_free_while_running_witness :
    Reachable 2 (after 2 runningRun) ∧
    (after 2 runningRun).workers[0]? = some (WorkerPc.running entryA) ∧
    (after 2 runningRun).queue_mutex ≠ some (Holder.worker 0) ∧
    (run (after 2 runningRun) meanwhileRun).isSome = true ∧
    (after 2 (runningRun ++ meanwhileRun)).workers
      = [WorkerPc.running entryA, WorkerPc.running entryB] :=
  ⟨reachable_after (s := after 2 runningRun) (by decide), by decide,
    (C9_mutex_free_while_running 2 (after 2 runningRun)
      (reachable_after (s := after 2 runningRun) (by decide))).1 0 entryA (by decide),
    by decide, by decide⟩

end CoroutinePool
